import Mathlib

/-!
Verification of the StackGAN-v1 demo pipeline (`demo/demo_embeddings_tf.py`,
`embedding/graph_load.py`).  The Python code is shallowly embedded: pure
fragments become Lean functions, the batching `while` loop becomes a
fuelled recursion on the loop counter, Python `raise` becomes
`Except.error`, and the TensorFlow graph operations that only build
symbolic expressions are represented by the arithmetic they denote.
-/

namespace StackGAN

/-! ## Python string helpers -/

/-- Leading-match test used by the substring search below: does `needle`
occur at the head of `hay`? -/
def list_starts_with : List Char → List Char → Bool
  | _, [] => true
  | [], _ :: _ => false
  | a :: as, b :: bs => a == b && list_starts_with as bs

/-- Scan of `hay` for the first position (counted from `i`) where `needle`
occurs; mirrors the search performed by Python `str.find`. -/
def find_sub_aux : List Char → List Char → Nat → Option Nat
  | [], needle, i => if needle.isEmpty then some i else none
  | a :: as, needle, i =>
    if list_starts_with (a :: as) needle then some i
    else find_sub_aux as needle (i + 1)

/-- Python `hay.find(needle)`: index of the first occurrence, `-1` if none. -/
def py_find (hay needle : String) : Int :=
  match find_sub_aux hay.toList needle.toList 0 with
  | some i => (i : Int)
  | none => -1

/-- First index `≥ start` at which character `c` occurs in `s`; mirrors
Python `s.find(c, start)` (with `none` for Python's `-1`). -/
def find_char_from (s : List Char) (c : Char) (start : Nat) : Option Nat :=
  match s.drop start |>.findIdx? (· == c) with
  | some j => some (start + j)
  | none => none

/-- ASCII-letter test, the character class `[a-zA-Z]` of the regular
expression at line 131 of `demo_embeddings_tf.py`. -/
def is_ascii_alpha (c : Char) : Bool :=
  ('a' ≤ c && c ≤ 'z') || ('A' ≤ c && c ≤ 'Z')

/-- Truth of `re.search('[a-zA-Z]+', s)`: some character of `s` is an
ASCII letter. -/
def hasAlpha (s : String) : Bool :=
  s.toList.any is_ascii_alpha

/-- Python truthiness of an exception-free result: `true` when the model
of a code path ends in a raised exception. -/
def raises {ε α : Type} : Except ε α → Bool
  | .error _ => true
  | .ok _ => false

/-! ## build_model checkpoint handling (demo_embeddings_tf.py lines 84-91) -/

/-- Outcome of the checkpoint branch of `build_model`: either the saver
restored the checkpoint, or the invalid-path message was printed and
restoring was skipped. -/
inductive CkptLoad : Type
  | restored
  | skippedInvalid
deriving DecidableEq, Repr

/-- Checkpoint step of `build_model`: `if ckt_path.find('.ckpt') != -1`
restore, `else` print "Input a valid model path. ... is not valid".
Both branches fall through to the `return` statement, so both are
modelled as `Except.ok`; a `raise` would be `Except.error`. -/
def build_model_load (ckt_path : String) : Except String CkptLoad :=
  if py_find ckt_path ".ckpt" ≠ -1 then .ok .restored
  else .ok .skippedInvalid

/-! ## drawCaption (demo_embeddings_tf.py lines 94-116) -/

/-- Text lines drawn for the caption by `drawCaption`:
`idx = caption.find(' ', 60)`; one line when `idx == -1`, otherwise the
two lines `caption[:idx]` and `caption[idx+1:]`. -/
def drawCaption_lines (caption : List Char) : List (List Char) :=
  match find_char_from caption ' ' 60 with
  | none => [caption]
  | some idx => [caption.take idx, caption.drop (idx + 1)]

/-! ## main entry checks (demo_embeddings_tf.py lines 251-256) -/

/-- Number of embeddings returned by `embed_text`: one per line of the
input file (`len(normalized_texts)`), regardless of line content. -/
def embed_text_count (normalized_texts : List String) : Nat :=
  normalized_texts.length

/-- Guard in `__main__`: `if num_embeddings <= 0: raise ValueError(...)`. -/
def main_check (normalized_texts : List String) : Except String Unit :=
  if embed_text_count normalized_texts ≤ 0 then
    .error "At least one embedding required"
  else .ok ()

/-! ## The batching loop of `__main__` (demo_embeddings_tf.py lines 269-288)

```
count = 0
while count < num_embeddings:
    iend = count + batch_size
    if iend > num_embeddings:
        iend = num_embeddings
        count = num_embeddings - batch_size
    ... process embeddings[count:iend] ...
    count += batch_size
```
The loop is embedded with explicit fuel; `n.toNat + 1` units of fuel are
enough to run it to completion whenever `batch_size ≥ 1` (each iteration
raises the next value of `count` by at least one, or jumps straight to
`n`), which the completion lemmas below prove.  With `batch_size ≤ 0`
the Python loop never terminates; the fuelled model then returns a
truncated list, and every theorem below assumes a positive configured
batch size. -/

/-- One execution of the loop body per constructor: the produced element
is the pair `(count, iend)` whose slice `embeddings[count:iend]` is
processed, after the realignment of the final batch. -/
def batch_slices_fuel (n bs : Int) : Nat → Int → List (Int × Int)
  | 0, _ => []
  | fuel + 1, count =>
    if count < n then
      if n < count + bs then
        (n - bs, n) :: batch_slices_fuel n bs fuel n
      else
        (count, count + bs) :: batch_slices_fuel n bs fuel (count + bs)
    else []

/-- All `(count, iend)` slice bounds processed by the batching loop,
started as in the source with `count = 0`. -/
def batch_slices (n bs : Int) : List (Int × Int) :=
  batch_slices_fuel n bs (n.toNat + 1) 0

/-- Python slice `l[c:e]` for `0 ≤ c` and `0 ≤ e`. -/
def pySlice {α : Type} (l : List α) (c e : Int) : List α :=
  (l.take e.toNat).drop c.toNat

/-! ## save_super_images (demo_embeddings_tf.py lines 119-181) -/

/-- Names (as the integer `startID + j` of `sentence%d.jpg`) of the image
files written by one `save_super_images` call: the loop
`for j in range(batch_size)` skips `j` when
`re.search('[a-zA-Z]+', texts_batch[j])` fails, and the final
`scipy.misc.imsave` runs only under `if save_dir:` (non-empty string). -/
def ssi_written (save_dir : String) (texts_batch : List String)
    (batch_size startID : Int) : List Int :=
  (List.range batch_size.toNat).filterMap fun j =>
    if hasAlpha (texts_batch.getD j "") ∧ save_dir ≠ "" then
      some (startID + (j : Int))
    else none

/-- File names written by the whole `__main__` run: the batching loop over
the (already normalized) input lines, with
`batch_size = min(num_embeddings, cfg.TEST.BATCH_SIZE)` and each batch
passed to `save_super_images` with `startID = count`. -/
def main_written (texts : List String) (B : Int) (save_dir : String) :
    List Int :=
  let n : Int := texts.length
  let bs : Int := min n B
  (batch_slices n bs).flatMap fun p =>
    ssi_written save_dir (pySlice texts p.1 p.2) bs p.1

/-! ## GenerativeModel.generate_n (demo_embeddings_tf.py lines 228-237) -/

/-- `generate_n`: `for i in range(np.minimum(16, n))` calls
`self.generate(embeddings)` and appends the high-res and low-res sample
batches; the `i`-th generation call is abstracted as `g i` (its result
depends on freshly drawn noise, hence on the call index).  Python's
default argument `n=8` is mirrored.  Returns
`(hr_samples_batchs, lr_samples_batchs)`. -/
def generate_n {β α : Type} (g : Nat → β × α) (n : Nat := 8) :
    List β × List α :=
  ((List.range (min 16 n)).map fun i => (g i).1,
   (List.range (min 16 n)).map fun i => (g i).2)

/-! ## Conditioning augmentation (demo_embeddings_tf.py lines 45-58, 75-82)

`CondGAN.generate_condition` lives in `stageII/model.py`, which is not
part of the sources here; it is modelled from the spec. -/

/-- Learned parameters of one variable scope's conditioning projection. -/
structure CondParams (α : Type) where
  meanProj : List α → List α
  logSigmaProj : List α → List α

/-- Modelled from the spec: `CondGAN.generate_condition` (file
`stageII/model.py`, not under the given sources) "computes (mean,
log-stddev) via a learned projection" from the embedding; the scope's
learned projection parameters are the `CondParams`. -/
def generate_condition {α : Type} (p : CondParams α) (embeddings : List α) :
    List α × List α :=
  (p.meanProj embeddings, p.logSigmaProj embeddings)

/-- Elementwise tensor sum. -/
def vec_add {α : Type} [Add α] (x y : List α) : List α :=
  List.zipWith (· + ·) x y

/-- Elementwise tensor product. -/
def vec_mul {α : Type} [Mul α] (x y : List α) : List α :=
  List.zipWith (· * ·) x y

/-- `sample_encoded_context`: takes `c_mean_logsigma` from
`generate_condition`; with `bAugmentation` (default `True`) returns
`mean + exp(log_sigma) * epsilon` for the freshly drawn truncated-normal
noise `epsilon`, else returns the mean.  The exponential is the abstract
scalar map `ex` (the embedding does not fix the real number model). -/
def sample_encoded_context {α : Type} [Add α] [Mul α] (ex : α → α)
    (p : CondParams α) (epsilon : List α) (embeddings : List α)
    (bAugmentation : Bool := true) : List α :=
  let c_mean_logsigma := generate_condition p embeddings
  let mean := c_mean_logsigma.1
  if bAugmentation then
    let stddev := c_mean_logsigma.2.map ex
    vec_add mean (vec_mul stddev epsilon)
  else mean

/-- Conditioning codes built by `build_model` (lines 75-82): `c` in
variable scope `g_net` and `hr_c` in variable scope `hr_g_net`, each a
`sample_encoded_context` call with the scope's own parameters and its
own fresh noise, on the same embeddings. -/
def build_model_conditioning {α : Type} [Add α] [Mul α] (ex : α → α)
    (g_params hr_g_params : CondParams α) (eps_g eps_hr : List α)
    (embeddings : List α) : List α × List α :=
  let c := sample_encoded_context ex g_params eps_g embeddings
  let hr_c := sample_encoded_context ex hr_g_params eps_hr embeddings
  (c, hr_c)

/-! ## Pixel rescaling (demo_embeddings_tf.py line 141) -/

/-- `(hr_img + 1.0) * 127.5`, over exact rationals (`127.5 = 255/2`). -/
def rescale_to_display (x : ℚ) : ℚ :=
  (x + 1) * (255 / 2)

/-- Modelled from the spec: the inverse map `y / 127.5 - 1` named by the
round-trip property (it appears in no source file). -/
def rescale_from_display (y : ℚ) : ℚ :=
  y / (255 / 2) - 1

/-! ## Model.embed (embedding/graph_load.py lines 42-67) -/

/-- `MAX_SENT_LENGTH` from `embedding/graph_load.py` line 17, the default
`maxlen` of `Model`. -/
def MAX_SENT_LENGTH : Nat := 400

/-- Keras `pad_sequences(_, maxlen, padding='post', truncating='post')`
on a single sequence: values beyond `maxlen` are cut from the end, and
zero padding is appended at the end up to length `maxlen`. -/
def pad_sequences_post (maxlen : Nat) (s : List Nat) : List Nat :=
  s.take maxlen ++ List.replicate (maxlen - s.length) 0

/-- `Model.embed`: a bare string (`Sum.inl`) is wrapped into a singleton
list, a list (`Sum.inr`) is used as is; every text is tokenized by the
fitted tokenizer (abstracted as `tok`, since `keras`'s `Tokenizer` is
external to the repository) and padded/truncated to `maxlen`.  The
result stands for the token matrix of shape `(len(text), maxlen)` fed to
the frozen graph. -/
def Model_embed (tok : String → List Nat) (maxlen : Nat)
    (text : String ⊕ List String) : List (List Nat) :=
  let texts : List String :=
    match text with
    | .inl s => [s]
    | .inr l => l
  (texts.map tok).map (pad_sequences_post maxlen)

/-! ## Lemmas on the batching loop -/

/-- Once `count` reaches `num_embeddings` the loop exits at once. -/
lemma batch_slices_fuel_of_le {n bs : Int} (fuel : Nat) (count : Int)
    (h : n ≤ count) : batch_slices_fuel n bs fuel count = [] := by
  cases fuel with
  | zero => rfl
  | succ fuel => simp [batch_slices_fuel, not_lt.mpr h]

/-- Invariant of every processed slice `(count, iend)`: slice bounds stay
inside `[0, n]`, the slice is non-degenerate, and its width is exactly
`bs`.  True with any amount of fuel. -/
lemma batch_slices_fuel_mem {n bs : Int} (hbs : 1 ≤ bs) (hle : bs ≤ n) :
    ∀ (fuel : Nat) (count : Int), 0 ≤ count →
      ∀ p ∈ batch_slices_fuel n bs fuel count,
        0 ≤ p.1 ∧ p.1 < p.2 ∧ p.2 ≤ n ∧ p.2 - p.1 = bs := by
  intro fuel
  induction fuel with
  | zero =>
    intro count _ p hp
    simp [batch_slices_fuel] at hp
  | succ fuel ih =>
    intro count hc p hp
    by_cases h1 : count < n
    · by_cases h2 : n < count + bs
      · simp only [batch_slices_fuel, if_pos h1, if_pos h2,
          List.mem_cons] at hp
        rcases hp with rfl | hp
        · exact ⟨by omega, by omega, le_refl n, by omega⟩
        · rw [batch_slices_fuel_of_le fuel n le_rfl] at hp
          simp at hp
      · simp only [batch_slices_fuel, if_pos h1, if_neg h2,
          List.mem_cons] at hp
        rcases hp with rfl | hp
        · exact ⟨hc, by omega, by omega, by omega⟩
        · exact ih (count + bs) (by omega) p hp
    · rw [batch_slices_fuel_of_le (fuel + 1) count (by omega)] at hp
      simp at hp

/-- With enough fuel to complete the loop, the last slice it processes is
`(n - bs, n)`: reading the list of slices backwards, either the last
iteration realigned and produced exactly that pair, or the loop divided
evenly and the final ordinary slice is `(n - bs, n)` as well. -/
lemma batch_slices_fuel_getLast {n bs : Int} (hbs : 1 ≤ bs) :
    ∀ (fuel : Nat) (count : Int), count < n → (n - count).toNat ≤ fuel →
      (batch_slices_fuel n bs fuel count).getLast? = some (n - bs, n) := by
  intro fuel
  induction fuel with
  | zero => intro count hc hf; omega
  | succ fuel ih =>
    intro count hc hf
    by_cases h2 : n < count + bs
    · simp only [batch_slices_fuel, if_pos hc, if_pos h2]
      rw [batch_slices_fuel_of_le fuel n le_rfl]
      rfl
    · simp only [batch_slices_fuel, if_pos hc, if_neg h2]
      by_cases h3 : count + bs < n
      · have hrest := ih (count + bs) h3 (by omega)
        rcases hEq : batch_slices_fuel n bs fuel (count + bs) with _ | ⟨r, rs⟩
        · rw [hEq] at hrest
          simp at hrest
        · rw [hEq] at hrest
          rw [List.getLast?_cons_cons]
          exact hrest
      · have h4 : count + bs = n := by omega
        rw [batch_slices_fuel_of_le fuel (count + bs) (by omega)]
        have h5 : count = n - bs := by omega
        simp [List.getLast?, h4, h5]

/-- With enough fuel to complete the loop, the slices processed from a
start value `count < n` cover exactly the index interval
`[min count (n - bs), n)` (from `count = 0` with `bs ≤ n`: all of
`[0, n)`). -/
lemma batch_slices_fuel_cover {n bs : Int} (hbs : 1 ≤ bs) :
    ∀ (fuel : Nat) (count : Int), count < n → (n - count).toNat ≤ fuel →
      ∀ i : Int,
        (∃ p ∈ batch_slices_fuel n bs fuel count, p.1 ≤ i ∧ i < p.2) ↔
          (min count (n - bs) ≤ i ∧ i < n) := by
  intro fuel
  induction fuel with
  | zero => intro count hc hf; omega
  | succ fuel ih =>
    intro count hc hf i
    by_cases h2 : n < count + bs
    · simp only [batch_slices_fuel, if_pos hc, if_pos h2,
        batch_slices_fuel_of_le fuel n le_rfl, List.mem_cons,
        List.not_mem_nil, or_false]
      constructor
      · rintro ⟨p, rfl, hi⟩
        omega
      · intro hi
        exact ⟨(n - bs, n), rfl, by omega⟩
    · simp only [batch_slices_fuel, if_pos hc, if_neg h2, List.mem_cons]
      by_cases h3 : count + bs < n
      · have hrest := ih (count + bs) h3 (by omega) i
        constructor
        · rintro ⟨p, rfl | hp, hi⟩
          · omega
          · have := hrest.mp ⟨p, hp, hi⟩
            omega
        · intro hi
          by_cases h4 : i < count + bs
          · exact ⟨(count, count + bs), Or.inl rfl, by omega⟩
          · obtain ⟨p, hp, hip⟩ := hrest.mpr (by omega)
            exact ⟨p, Or.inr hp, hip⟩
      · have h4 : count + bs = n := by omega
        have h0 : batch_slices_fuel n bs fuel (count + bs) = [] :=
          batch_slices_fuel_of_le fuel (count + bs) (by omega)
        simp only [h0, List.not_mem_nil, or_false]
        constructor
        · rintro ⟨p, rfl, hi⟩
          omega
        · intro hi
          exact ⟨(count, count + bs), rfl, by omega⟩

/-- C2: with at least one embedding and a positive configured batch size,
whenever `num_embeddings` is not divisible by `batch_size` the batching
loop's final slice is the realigned `(num_embeddings - batch_size,
num_embeddings)`, and no slice's end index exceeds `num_embeddings`. -/
theorem batching_last_batch_realigned (n B bs : Int) (hn : 1 ≤ n)
    (hB : 1 ≤ B) (hbs : bs = min n B) (hnd : ¬ bs ∣ n) :
    (batch_slices n bs).getLast? = some (n - bs, n) ∧
      ∀ p ∈ batch_slices n bs, p.2 ≤ n := by
  have h1 : 1 ≤ bs := by omega
  have h2 : bs ≤ n := by omega
  refine ⟨batch_slices_fuel_getLast h1 _ 0 (by omega) (by omega), ?_⟩
  intro p hp
  exact (batch_slices_fuel_mem h1 h2 _ 0 le_rfl p hp).2.2.1

/-- Witness for `batching_last_batch_realigned` at `n = 5`, `B = 2`. -/
theorem batching_last_batch_realigned_witness :
    (1 ≤ (5 : Int) ∧ 1 ≤ (2 : Int) ∧ (2 : Int) = min 5 2 ∧
        ¬ (2 : Int) ∣ 5) ∧
      ((batch_slices 5 2).getLast? = some (5 - 2, 5) ∧
        ∀ p ∈ batch_slices 5 2, p.2 ≤ 5) :=
  ⟨⟨by norm_num, by norm_num, by norm_num, by omega⟩,
    batching_last_batch_realigned 5 2 2 (by norm_num) (by norm_num)
      (by norm_num) (by omega)⟩

/-- C9: loop invariant of the batching loop.  Every slice
`embeddings[count:iend]` handed to generation has exactly `batch_size`
elements, every slice satisfies `0 ≤ count < iend ≤ num_embeddings`, and
the realigned final count `num_embeddings - batch_size` is never
negative. -/
theorem batching_loop_invariant {α : Type} (l : List α) (n B bs : Int)
    (hn : 1 ≤ n) (hB : 1 ≤ B) (hbs : bs = min n B)
    (hl : (l.length : Int) = n) :
    0 ≤ n - bs ∧
      ∀ p ∈ batch_slices n bs,
        ((pySlice l p.1 p.2).length : Int) = bs ∧
          0 ≤ p.1 ∧ p.1 < p.2 ∧ p.2 ≤ n := by
  have h1 : 1 ≤ bs := by omega
  have h2 : bs ≤ n := by omega
  refine ⟨by omega, ?_⟩
  intro p hp
  obtain ⟨hp1, hp2, hp3, hp4⟩ :=
    batch_slices_fuel_mem h1 h2 _ 0 le_rfl p hp
  refine ⟨?_, hp1, hp2, hp3⟩
  simp only [pySlice, List.length_drop, List.length_take]
  omega

/-- Witness for `batching_loop_invariant` at a five-element list with
configured batch size `2`. -/
theorem batching_loop_invariant_witness :
    (1 ≤ (5 : Int) ∧ 1 ≤ (2 : Int) ∧ (2 : Int) = min 5 2 ∧
        (([10, 11, 12, 13, 14] : List Nat).length : Int) = 5) ∧
      (0 ≤ (5 : Int) - 2 ∧
        ∀ p ∈ batch_slices 5 2,
          ((pySlice ([10, 11, 12, 13, 14] : List Nat) p.1 p.2).length :
              Int) = 2 ∧ 0 ≤ p.1 ∧ p.1 < p.2 ∧ p.2 ≤ 5) :=
  ⟨⟨by norm_num, by norm_num, by norm_num, by norm_num⟩,
    batching_loop_invariant [10, 11, 12, 13, 14] 5 2 2 (by norm_num)
      (by norm_num) (by norm_num) (by norm_num)⟩

/-! ## C1: checkpoint-path handling -/

/-- C1 as stated is false: on the path "foo", which does not contain
".ckpt", `build_model` prints the invalid-path message and returns
normally; no exception is raised. -/
theorem invalid_ckpt_no_raise_counterexample :
    py_find "foo" ".ckpt" = -1 ∧
      raises (build_model_load "foo") = false := by
  decide

/-- C1 amended: when the configured checkpoint path does not contain
".ckpt", `build_model` prints the invalid-path message and skips
restoring, returning normally (no raise); when it does contain ".ckpt"
the checkpoint is restored. -/
theorem build_model_ckpt_branches (path : String) :
    (py_find path ".ckpt" = -1 →
      build_model_load path = .ok .skippedInvalid) ∧
      (py_find path ".ckpt" ≠ -1 →
        build_model_load path = .ok .restored) := by
  constructor
  · intro h
    simp [build_model_load, h]
  · intro h
    simp [build_model_load, h]

/-- Witness for `build_model_ckpt_branches` on the two concrete paths
"foo" and "birds_model.ckpt". -/
theorem build_model_ckpt_branches_witness :
    build_model_load "foo" = .ok .skippedInvalid ∧
      build_model_load "birds_model.ckpt" = .ok .restored :=
  ⟨(build_model_ckpt_branches "foo").1 (by decide),
    (build_model_ckpt_branches "birds_model.ckpt").2 (by decide)⟩

/-! ## C4: the zero-valid-sentences check -/

/-- A `save_super_images` call writes nothing when no text of its batch
contains an ASCII letter. -/
lemma ssi_written_nil (sd : String) (tb : List String) (bs c : Int)
    (h : ∀ x ∈ tb, hasAlpha x = false) :
    ssi_written sd tb bs c = [] := by
  unfold ssi_written
  rw [List.filterMap_eq_nil_iff]
  intro j hj
  have hfalse : hasAlpha (tb.getD j "") = false := by
    rcases hx : tb[j]? with _ | x
    · simp [List.getD_eq_getElem?_getD, hx, hasAlpha]
    · have := h x (List.getElem?_mem hx)
      simp [List.getD_eq_getElem?_getD, hx, this]
  rw [List.getD_eq_getElem?_getD] at hfalse
  simp [hfalse]

/-- C4 as stated is false: with the single line "123" no sentence
contains an ASCII letter, so no output image would be produced, yet
`num_embeddings = 1` passes the guard and the program does not raise
(it runs through and writes zero files). -/
theorem zero_valid_sentences_no_raise_counterexample :
    ["123"].filter hasAlpha = ([] : List String) ∧
      raises (main_check ["123"]) = false ∧
      main_written ["123"] 64 "out" = [] := by
  decide

/-- C4 amended: the `ValueError` is raised exactly when the input file
has zero lines (`num_embeddings <= 0`); when lines exist but none
contains an ASCII letter, the run proceeds without raising and writes
no file. -/
theorem main_check_raises_iff (texts : List String) (B : Int)
    (sd : String) :
    (raises (main_check texts) = true ↔ texts = []) ∧
      (texts.filter hasAlpha = [] → main_written texts B sd = []) := by
  constructor
  · rcases texts with _ | ⟨t, ts⟩ <;>
      simp [main_check, embed_text_count, raises]
  · intro hfilter
    have h : ∀ x ∈ texts, hasAlpha x = false := by
      intro x hx
      by_contra hc
      have hmem : x ∈ texts.filter hasAlpha :=
        List.mem_filter.mpr ⟨hx, by simpa using hc⟩
      rw [hfilter] at hmem
      simp at hmem
    unfold main_written
    rw [List.flatMap_eq_nil_iff]
    intro p _
    refine ssi_written_nil _ _ _ _ ?_
    intro x hx
    exact h x (List.take_subset _ _ (List.drop_subset _ _ hx))

/-- Witness for `main_check_raises_iff`: the all-digit input line "123"
produces zero written files. -/
theorem main_check_raises_iff_witness :
    main_written ["123"] 64 "out" = [] :=
  (main_check_raises_iff ["123"] 64 "out").2 (by decide)

/-! ## C6: caption drawing -/

/-- A successful `caption.find(' ', start)` points at a space inside the
caption. -/
lemma find_char_from_some {s : List Char} {c : Char} {start idx : Nat}
    (h : find_char_from s c start = some idx) :
    ∃ hlt : idx < s.length, s[idx] = c := by
  unfold find_char_from at h
  rcases hEq : (s.drop start).findIdx? (· == c) with _ | j
  · rw [hEq] at h
    simp at h
  · rw [hEq] at h
    simp only [Option.some.injEq] at h
    obtain ⟨hj, hpj, -⟩ := List.findIdx?_eq_some_iff_getElem.mp hEq
    subst h
    have hlen : start + j < s.length := by
      rw [List.length_drop] at hj
      omega
    refine ⟨hlen, ?_⟩
    rw [List.getElem_drop] at hpj
    exact beq_iff_eq.mp hpj

/-- Splitting a list at a known occurrence of a character and re-joining
with that character restores the list. -/
lemma take_char_drop {s : List Char} {idx : Nat} (h1 : idx < s.length)
    (h2 : s[idx] = ' ') :
    s.take idx ++ ' ' :: s.drop (idx + 1) = s := by
  have h := List.take_append_drop idx s
  rw [List.drop_eq_getElem_cons h1] at h
  rw [h2] at h
  exact h

/-- C6 as stated is false: the caption "a bird" contains an ASCII
letter, so its image grid is produced, yet `caption.find(' ', 60)`
fails and `drawCaption` draws the caption as a single text line. -/
theorem caption_two_lines_counterexample :
    hasAlpha "a bird" = true ∧
      (drawCaption_lines "a bird".toList).length = 1 := by
  decide

/-- C6 amended: the caption is drawn on one line when it has no space at
or after index 60, and is split into exactly two lines at the first such
space otherwise; in the split case the two lines, re-joined by the
removed space, restore the caption. -/
theorem drawCaption_split (caption : List Char) :
    (find_char_from caption ' ' 60 = none →
      drawCaption_lines caption = [caption]) ∧
      (∀ idx, find_char_from caption ' ' 60 = some idx →
        (drawCaption_lines caption).length = 2 ∧
          caption.take idx ++ ' ' :: caption.drop (idx + 1) = caption) := by
  constructor
  · intro h
    unfold drawCaption_lines
    rw [h]
  · intro idx h
    unfold drawCaption_lines
    rw [h]
    obtain ⟨h1, h2⟩ := find_char_from_some h
    exact ⟨rfl, take_char_drop h1 h2⟩

/-- Witness for `drawCaption_split`: the short caption "a bird" stays on
one line; a 79-character caption is split at the space at index 63. -/
theorem drawCaption_split_witness :
    drawCaption_lines "a bird".toList = ["a bird".toList] ∧
      ((drawCaption_lines ("this is a very long caption that has more than sixty characters in it for sure").toList).length = 2 ∧
        ("this is a very long caption that has more than sixty characters in it for sure").toList.take 63 ++
            ' ' :: ("this is a very long caption that has more than sixty characters in it for sure").toList.drop 64 =
          ("this is a very long caption that has more than sixty characters in it for sure").toList) :=
  ⟨(drawCaption_split "a bird".toList).1 (by decide),
    (drawCaption_split ("this is a very long caption that has more than sixty characters in it for sure").toList).2 63 (by decide)⟩

/-! ## C7: generate_n caps the sample count at 16 -/

/-- C7: `generate_n` performs `min 16 n` generation calls, returning
that many high-res and that many low-res sample batches, never more
than 16. -/
theorem generate_n_lengths {β α : Type} (g : Nat → β × α) (n : Nat) :
    (generate_n g n).1.length = min 16 n ∧
      (generate_n g n).2.length = min 16 n ∧ min 16 n ≤ 16 := by
  refine ⟨?_, ?_, Nat.min_le_left _ _⟩ <;> simp [generate_n]

/-! ## C8: pixel rescaling round-trip -/

/-- C8: `(x + 1.0) * 127.5` maps `[-1, 1]` onto `[0, 255]`, and the
inverse map `y / 127.5 - 1` undoes it exactly over exact arithmetic. -/
theorem rescale_round_trip :
    (∀ x : ℚ, -1 ≤ x → x ≤ 1 →
      0 ≤ rescale_to_display x ∧ rescale_to_display x ≤ 255) ∧
      (∀ y : ℚ, 0 ≤ y → y ≤ 255 →
        ∃ x : ℚ, -1 ≤ x ∧ x ≤ 1 ∧ rescale_to_display x = y) ∧
      (∀ x : ℚ, rescale_from_display (rescale_to_display x) = x) := by
  refine ⟨?_, ?_, ?_⟩
  · intro x h1 h2
    unfold rescale_to_display
    constructor <;> nlinarith
  · intro y h1 h2
    refine ⟨rescale_from_display y, ?_, ?_, ?_⟩
    · unfold rescale_from_display
      have h3 : (0 : ℚ) ≤ y / (255 / 2) := by positivity
      linarith
    · unfold rescale_from_display
      have h3 : y / (255 / 2) ≤ 2 := by
        rw [div_le_iff₀ (by norm_num)]
        linarith
      linarith
    · unfold rescale_from_display rescale_to_display
      field_simp
  · intro x
    unfold rescale_from_display rescale_to_display
    field_simp

/-- Witness for `rescale_round_trip` at `x = 0` and `y` the image of
`1/2`. -/
theorem rescale_round_trip_witness :
    (0 ≤ rescale_to_display 0 ∧ rescale_to_display 0 ≤ 255) ∧
      rescale_from_display (rescale_to_display (1 / 2)) = 1 / 2 :=
  ⟨rescale_round_trip.1 0 (by norm_num) (by norm_num),
    rescale_round_trip.2.2 (1 / 2)⟩

/-! ## C10: Model.embed shape -/

/-- Every padded/truncated row has length exactly `maxlen`. -/
lemma pad_sequences_post_length (maxlen : Nat) (s : List Nat) :
    (pad_sequences_post maxlen s).length = maxlen := by
  simp only [pad_sequences_post, List.length_append, List.length_take,
    List.length_replicate]
  omega

/-- C10: `Model.embed` wraps a bare string into a one-element list,
produces one row per input text, gives every row length exactly
`maxlen` (default `MAX_SENT_LENGTH = 400`), keeps the leading tokens,
and pads or truncates at the end. -/
theorem Model_embed_shape (tok : String → List Nat) (maxlen : Nat) :
    (∀ s, Model_embed tok maxlen (.inl s) =
        [pad_sequences_post maxlen (tok s)]) ∧
      (∀ l, (Model_embed tok maxlen (.inr l)).length = l.length) ∧
      (∀ input row, row ∈ Model_embed tok maxlen input →
        row.length = maxlen) ∧
      (∀ s : List Nat,
        (pad_sequences_post maxlen s).take (min maxlen s.length) =
          s.take maxlen) ∧
      MAX_SENT_LENGTH = 400 := by
  refine ⟨fun s => rfl, fun l => by simp [Model_embed], ?_, ?_, rfl⟩
  · intro input row hrow
    simp only [Model_embed, List.map_map, List.mem_map] at hrow
    obtain ⟨t, -, rfl⟩ := hrow
    exact pad_sequences_post_length maxlen (tok t)
  · intro s
    have h : (s.take maxlen).length = min maxlen s.length :=
      List.length_take maxlen s
    exact List.take_left' h

/-- Witness for `Model_embed_shape` with a concrete tokenizer stub. -/
theorem Model_embed_shape_witness :
    ([1, 2] : List Nat) ∈ Model_embed (fun _ => [1, 2, 3]) 2
        (.inr ["ab"]) ∧
      ([1, 2] : List Nat).length = 2 :=
  ⟨by decide,
    (Model_embed_shape (fun _ => [1, 2, 3]) 2).2.2.1 (.inr ["ab"]) [1, 2]
      (by decide)⟩

/-! ## C5: conditioning sampler -/

/-- `getD` distributes over `zipWith` inside the common length range. -/
lemma zipWith_getD {α : Type} (f : α → α → α) :
    ∀ (x y : List α) (i : Nat) (d : α), i < x.length → i < y.length →
      (List.zipWith f x y).getD i d = f (x.getD i d) (y.getD i d) := by
  intro x
  induction x with
  | nil =>
    intro y i d h1 h2
    simp at h1
  | cons a as ih =>
    intro y i d h1 h2
    cases y with
    | nil => simp at h2
    | cons b bs =>
      cases i with
      | zero => simp
      | succ i =>
        simpa using ih bs i d (by simpa using h1) (by simpa using h2)

/-- `getD` distributes over `map` inside the length range. -/
lemma getD_map_of_lt {α : Type} (f : α → α) (l : List α) (i : Nat)
    (d : α) (h : i < l.length) :
    (l.map f).getD i d = f (l.getD i d) := by
  rw [List.getD_eq_getElem?_getD, List.getD_eq_getElem?_getD,
    List.getElem?_eq_getElem (by simpa using h),
    List.getElem?_eq_getElem h]
  simp

/-- C5: for each embedding, the conditioning code of the `g_net` scope
is `mean + exp(log_sigma) * noise` computed from that scope's projection
parameters and noise, the `hr_g_net` code is the same formula with the
other scope's own parameters and noise, and with augmentation disabled
`sample_encoded_context` returns exactly the mean. -/
theorem conditioning_sampler {α : Type} [Add α] [Mul α] (ex : α → α)
    (pg ph : CondParams α) (eg eh e : List α) (d : α) (i : Nat)
    (hg1 : (pg.logSigmaProj e).length = (pg.meanProj e).length)
    (hg2 : eg.length = (pg.meanProj e).length)
    (hh1 : (ph.logSigmaProj e).length = (ph.meanProj e).length)
    (hh2 : eh.length = (ph.meanProj e).length)
    (hig : i < (pg.meanProj e).length)
    (hih : i < (ph.meanProj e).length) :
    ((build_model_conditioning ex pg ph eg eh e).1.getD i d =
        (pg.meanProj e).getD i d +
          ex ((pg.logSigmaProj e).getD i d) * eg.getD i d) ∧
      ((build_model_conditioning ex pg ph eg eh e).2.getD i d =
        (ph.meanProj e).getD i d +
          ex ((ph.logSigmaProj e).getD i d) * eh.getD i d) ∧
      sample_encoded_context ex pg eg e false = pg.meanProj e ∧
      sample_encoded_context ex ph eh e false = ph.meanProj e := by
  have key : ∀ (p : CondParams α) (eps : List α),
      (p.logSigmaProj e).length = (p.meanProj e).length →
      eps.length = (p.meanProj e).length → i < (p.meanProj e).length →
      (sample_encoded_context ex p eps e).getD i d =
        (p.meanProj e).getD i d +
          ex ((p.logSigmaProj e).getD i d) * eps.getD i d := by
    intro p eps h1 h2 hi
    have e1 : (List.zipWith (· + ·) (p.meanProj e)
          (List.zipWith (· * ·) ((p.logSigmaProj e).map ex) eps)).getD i d =
        (p.meanProj e).getD i d +
          (List.zipWith (· * ·) ((p.logSigmaProj e).map ex) eps).getD i d :=
      zipWith_getD _ _ _ _ _ hi
        (by simp only [List.length_zipWith, List.length_map]; omega)
    have e2 : (List.zipWith (· * ·) ((p.logSigmaProj e).map ex)
          eps).getD i d =
        ((p.logSigmaProj e).map ex).getD i d * eps.getD i d :=
      zipWith_getD _ _ _ _ _ (by simp only [List.length_map]; omega)
        (by omega)
    have e3 : ((p.logSigmaProj e).map ex).getD i d =
        ex ((p.logSigmaProj e).getD i d) :=
      getD_map_of_lt _ _ _ _ (by omega)
    calc (sample_encoded_context ex p eps e).getD i d
        = (List.zipWith (· + ·) (p.meanProj e)
            (List.zipWith (· * ·) ((p.logSigmaProj e).map ex)
              eps)).getD i d := rfl
      _ = (p.meanProj e).getD i d +
            ex ((p.logSigmaProj e).getD i d) * eps.getD i d := by
          rw [e1, e2, e3]
  exact ⟨key pg eg hg1 hg2 hig, key ph eh hh1 hh2 hih, rfl, rfl⟩

/-- Witness for `conditioning_sampler` over `ℚ` with identity
projections, `ex = (· + 1)`, embedding `[3]` and noises `[5]`, `[7]`. -/
theorem conditioning_sampler_witness :
    (build_model_conditioning (fun x : ℚ => x + 1)
        ⟨fun l => l, fun l => l⟩ ⟨fun l => l, fun l => l⟩
        [5] [7] [3]).1.getD 0 0 = 3 + (3 + 1) * 5 := by
  have h := (conditioning_sampler (fun x : ℚ => x + 1)
      ⟨fun l => l, fun l => l⟩ ⟨fun l => l, fun l => l⟩
      [5] [7] [3] 0 0 rfl rfl rfl rfl (by norm_num) (by norm_num)).1
  exact h

/-! ## C3: one output file per alphabetic line -/

/-- Characterization of the file names one `save_super_images` call
writes. -/
lemma mem_ssi_written {sd : String} {tb : List String} {bs c : Int}
    {i : Int} :
    i ∈ ssi_written sd tb bs c ↔
      ∃ j : Nat, j < bs.toNat ∧ hasAlpha (tb.getD j "") ∧ sd ≠ "" ∧
        i = c + j := by
  unfold ssi_written
  rw [List.mem_filterMap]
  constructor
  · rintro ⟨j, hj, hsome⟩
    rw [List.mem_range] at hj
    by_cases hcond : hasAlpha (tb.getD j "") ∧ sd ≠ ""
    · rw [if_pos hcond] at hsome
      exact ⟨j, hj, hcond.1, hcond.2, (Option.some_inj.mp hsome).symm⟩
    · rw [if_neg hcond] at hsome
      exact absurd hsome (by simp)
  · rintro ⟨j, hj, h1, h2, rfl⟩
    exact ⟨j, List.mem_range.mpr hj, by rw [if_pos ⟨h1, h2⟩]⟩

/-- Reading a Python slice at offset `j` reads the underlying list at
offset `c + j`. -/
lemma pySlice_getD {α : Type} (l : List α) (c e : Int) (j : Nat) (d : α)
    (hj : c.toNat + j < e.toNat) :
    (pySlice l c e).getD j d = l.getD (c.toNat + j) d := by
  unfold pySlice
  rw [List.getD_eq_getElem?_getD, List.getD_eq_getElem?_getD,
    List.getElem?_drop, List.getElem?_take, if_pos hj]

/-- The names written over the whole run are exactly the indices of the
lines that contain an ASCII letter: the batch slices cover `[0, n)`, a
slice's `j`-th text is the line `count + j`, and `save_super_images`
writes `sentence(count + j)` exactly when that line has a letter. -/
lemma mem_main_written (texts : List String) (B : Int) (sd : String)
    (hB : 1 ≤ B) (hn : 1 ≤ texts.length) (hsd : sd ≠ "") (i : Int) :
    i ∈ main_written texts B sd ↔
      0 ≤ i ∧ i < (texts.length : Int) ∧
        hasAlpha (texts.getD i.toNat "") := by
  have h1 : 1 ≤ min (texts.length : Int) B := by omega
  have h2 : min (texts.length : Int) B ≤ (texts.length : Int) := by omega
  simp only [main_written]
  rw [List.mem_flatMap]
  unfold batch_slices
  constructor
  · rintro ⟨p, hp, hmem⟩
    obtain ⟨hp1, hp2, hp3, hp4⟩ :=
      batch_slices_fuel_mem h1 h2 _ 0 le_rfl p hp
    obtain ⟨j, hj, halpha, -, rfl⟩ := mem_ssi_written.mp hmem
    have hj2 : p.1.toNat + j < p.2.toNat := by omega
    rw [pySlice_getD texts p.1 p.2 j "" hj2] at halpha
    refine ⟨by omega, by omega, ?_⟩
    have hcast : (p.1 + (j : Int)).toNat = p.1.toNat + j := by omega
    rw [hcast]
    exact halpha
  · rintro ⟨hi0, hin, halpha⟩
    obtain ⟨p, hp, hip⟩ :=
      (@batch_slices_fuel_cover (texts.length : Int)
        (min (texts.length : Int) B) h1 ((texts.length : Int).toNat + 1) 0
        (by omega) (by omega) i).mpr (by omega)
    obtain ⟨hp1, hp2, hp3, hp4⟩ :=
      batch_slices_fuel_mem h1 h2 _ 0 le_rfl p hp
    refine ⟨p, hp, mem_ssi_written.mpr
      ⟨(i - p.1).toNat, by omega, ?_, hsd, by omega⟩⟩
    rw [pySlice_getD texts p.1 p.2 _ "" (by omega)]
    have hcast : p.1.toNat + (i - p.1).toNat = i.toNat := by omega
    rw [hcast]
    exact halpha

/-- Counting: the indices `k < l.length` whose line satisfies `p` are as
many as the lines of `l` satisfying `p`. -/
lemma length_filter_range_getD (p : String → Bool) :
    ∀ l : List String,
      ((List.range l.length).filter (fun k => p (l.getD k ""))).length =
        (l.filter p).length := by
  intro l
  induction l with
  | nil => rfl
  | cons a t ih =>
    have hlen : (a :: t).length = t.length + 1 := rfl
    rw [hlen, List.range_succ_eq_map, List.filter_cons, List.filter_map,
      List.filter_cons]
    have hcong : List.filter
          ((fun k => p ((a :: t).getD k "")) ∘ Nat.succ)
          (List.range t.length) =
        List.filter (fun k => p (t.getD k "")) (List.range t.length) :=
      List.filter_congr (fun k _ => rfl)
    rw [hcong]
    rw [show (a :: t).getD 0 "" = a from rfl]
    by_cases hpa : p a
    · rw [if_pos hpa, if_pos hpa, List.length_cons, List.length_cons,
        List.length_map, ih]
    · rw [if_neg hpa, if_neg hpa, List.length_map, ih]

/-- C3: for every non-empty input (as its list of normalized lines), a
non-empty output directory and a positive configured batch size, the
number of distinct file names written over the run equals the number of
lines containing an ASCII letter, and every written file's index points
at such a line. -/
theorem written_files_count (texts : List String) (B : Int) (sd : String)
    (hB : 1 ≤ B) (hn : 1 ≤ texts.length) (hsd : sd ≠ "") :
    (main_written texts B sd).dedup.length =
        (texts.filter hasAlpha).length ∧
      ∀ i ∈ main_written texts B sd,
        hasAlpha (texts.getD i.toNat "") = true := by
  have hmem := mem_main_written texts B sd hB hn hsd
  constructor
  · set L : List Int :=
      ((List.range texts.length).filter
          (fun k => hasAlpha (texts.getD k ""))).map
        (fun k : Nat => (k : Int)) with hL
    have hLnodup : L.Nodup := by
      rw [hL]
      exact ((List.nodup_range _).filter _).map Nat.cast_injective
    have hsetEq : (main_written texts B sd).toFinset = L.toFinset := by
      ext i
      simp only [List.mem_toFinset]
      rw [hmem i, hL]
      constructor
      · rintro ⟨h0, h1, h2⟩
        rw [List.mem_map]
        refine ⟨i.toNat, ?_, by omega⟩
        rw [List.mem_filter, List.mem_range]
        exact ⟨by omega, h2⟩
      · intro hiL
        rw [List.mem_map] at hiL
        obtain ⟨k, hk, rfl⟩ := hiL
        rw [List.mem_filter, List.mem_range] at hk
        refine ⟨by omega, by omega, ?_⟩
        simpa using hk.2
    have c1 : (main_written texts B sd).dedup.length =
        (main_written texts B sd).toFinset.card :=
      (List.card_toFinset _).symm
    have c2 : L.toFinset.card = L.length :=
      List.toFinset_card_of_nodup hLnodup
    have c3 : L.length = (texts.filter hasAlpha).length := by
      rw [hL, List.length_map]
      exact length_filter_range_getD hasAlpha texts
    rw [c1, hsetEq, c2, c3]
  · intro i hi
    exact ((hmem i).mp hi).2.2

/-- Witness for `written_files_count`: five one-letter lines with
configured batch size `2` (so the final batch realigns and overlaps;
the overwritten duplicate name is counted once). -/
theorem written_files_count_witness :
    (main_written ["a", "b", "c", "d", "e"] 2 "out").dedup.length =
        (["a", "b", "c", "d", "e"].filter hasAlpha).length ∧
      ∀ i ∈ main_written ["a", "b", "c", "d", "e"] 2 "out",
        hasAlpha (["a", "b", "c", "d", "e"].getD i.toNat "") = true :=
  written_files_count ["a", "b", "c", "d", "e"] 2 "out" (by norm_num)
    (by decide) (by decide)

end StackGAN
